import Mathlib

/-!
Verification of the original-file reconciliation engine of
`find_originals.py` (photography-thingies).

The engine is embedded shallowly:
* Python strings are `List Char` (`Str`); `str.lower()` is ASCII case
  folding via `Char.toLower`, which agrees with Python on every ASCII
  string compared by the source.
* The filesystem walk (`os.walk` over the date-filtered directories) is
  passed in as a list of `(root, files)` entries, in walk order, exactly
  as the `for root, dirs, files in os.walk(...)` loop consumes it.
* The destination directory's pre-run contents are passed in as the list
  of filenames present there, so `os.path.exists(os.path.join(dest_dir,
  name))` becomes membership of `name` in that list.  This is faithful
  because every existence probe in `main` happens before any copy task
  runs and nothing else mutates the destination during assembly.
* The concurrent copy phase (`ThreadPoolExecutor`, `as_completed`,
  `future.result()`) is modelled by processing the tasks sequentially in
  one completion order; the properties proved about it do not depend on
  which completion order is fixed.
-/

abbrev Str := List Char

/-- ASCII case folding, mirroring `str.lower()` on the ASCII strings the
source compares (`Char.toLower` lowercases exactly `A`-`Z`). -/
def lowerStr (s : Str) : Str := s.map Char.toLower

/-- Index of the last `'.'` in a string, if any (Python `str.rfind('.')`
restricted to a hit). -/
def rfindDot : Str → Option Nat
  | [] => none
  | c :: t =>
    match rfindDot t with
    | some i => some (i + 1)
    | none => if c = '.' then some 0 else none

/-- Python `os.path.splitext` on a path without directory separators:
split at the last dot unless every character before it is a dot. -/
def splitext (s : Str) : Str × Str :=
  match rfindDot s with
  | none => (s, [])
  | some d => if (s.take d).all (fun c => c = '.') then (s, []) else (s.take d, s.drop d)

/-- `VALID_EXTENSIONS = {'.jpeg', '.jpg', '.JPEG', '.JPG'}` (line 100). -/
def VALID_EXTENSIONS : List Str :=
  [(".jpeg").toList, (".jpg").toList, (".JPEG").toList, (".JPG").toList]

/-- `RAW_EXTENSIONS` (line 103): raw extensions that may appear before the
final JPEG extension. -/
def RAW_EXTENSIONS : List Str :=
  [(".cr3").toList, (".cr2").toList, (".nef").toList, (".arw").toList,
   (".raf").toList, (".orf").toList, (".dng").toList, (".rw2").toList]

/-- Python dict assignment `m[k] = v`: overwrite in place if the key is
present, else append (insertion order preserved). -/
def dictInsert (m : List (Str × Str)) (k v : Str) : List (Str × Str) :=
  if m.any (fun kv => kv.1 = k) then
    m.map (fun kv => if kv.1 = k then (k, v) else kv)
  else m ++ [(k, v)]

/-- `build_basename_map` (lines 106-113): map lowercased stems to the
original thumb filename (the stored `None` second component is never
consulted and is dropped here). -/
def build_basename_map (filenames : List Str) : List (Str × Str) :=
  filenames.foldl (fun m f => dictInsert m (lowerStr (splitext f).1) f) []

/-- Separator accepted after an index key: `remainder[0] in ' -_'`
(line 155). -/
def sepOk (c : Char) : Bool := c = ' ' || c = '-' || c = '_'

/-- Lines 162-163 of `matches_basename`: with `remainder = '.' :: rest`,
`ext_part = remainder.split('.')[1] if '.' in remainder[1:] else
remainder[1:]`, then test `'.' + ext_part.lower()` and
`'.' + remainder[1:].lower()` against `RAW_EXTENSIONS`. -/
def rawRemainderOk (rest : Str) : Bool :=
  let extPart := if rest.contains '.' then rest.takeWhile (fun c => c != '.') else rest
  RAW_EXTENSIONS.contains ('.' :: lowerStr extPart)
    || RAW_EXTENSIONS.contains ('.' :: lowerStr rest)

/-- One index entry's test inside the `matches_basename` loop (lines
140-166): exact match, separator suffix, or dot plus raw extension. -/
def qualifies (stemL key : Str) : Bool :=
  if stemL = key then true
  else if key.isPrefixOf stemL then
    match stemL.drop key.length with
    | [] => false
    | c :: rest =>
      if sepOk c then true
      else if c = '.' then rawRemainderOk rest
      else false
  else false

/-- One iteration of the best-match loop: update when the entry qualifies
and its key is strictly longer than the best so far (lines 140-166). -/
def matchStep (stemL : Str) (acc : Option Str × Nat) (kv : Str × Str) : Option Str × Nat :=
  if qualifies stemL kv.1 = true ∧ acc.2 < kv.1.length then (some kv.2, kv.1.length) else acc

/-- `matches_basename` (lines 116-171): lowercase the candidate stem, scan
the index in order, keep the qualifying entry with the longest key
(starting from `best_match = None`, `best_match_len = 0`). -/
def matches_basename (file_base : Str) (search_bases : List (Str × Str)) : Option Str :=
  (search_bases.foldl (matchStep (lowerStr file_base)) (none, 0)).1

/-- Python substring test `pat in s`. -/
def hasSubstr (pat : Str) : Str → Bool
  | [] => pat.isEmpty
  | c :: t => pat.isPrefixOf (c :: t) || hasSubstr pat t

/-- Per-file body of the scan loop (lines 231-246): keep the file when its
`splitext` extension is in `VALID_EXTENSIONS` and its stem matches a thumb
basename; the recorded path is `os.path.join(root, filename)`. -/
def file_pair (idx : List (Str × Str)) (root f : Str) : List (Str × Str) :=
  if (splitext f).2 ∈ VALID_EXTENSIONS then
    match matches_basename (splitext f).1 idx with
    | some name => [(name, root ++ '/' :: f)]
    | none => []
  else []

/-- All pairs contributed by one `os.walk` yield `(root, files)`. -/
def entry_pairs (idx : List (Str × Str)) (root : Str) (files : List Str) : List (Str × Str) :=
  files.flatMap (file_pair idx root)

/-- The scan loop of `find_originals` (lines 225-246) over a walk given as
`(root, files)` entries: a root whose lowercased path contains
`'photobook/'` is skipped (line 228), otherwise each file is tested.  The
result is the `(thumb name, original path)` stream in discovery order;
the source's `found` dict groups this stream by name. -/
def scan_pairs (walk : List (Str × List Str)) (idx : List (Str × Str)) : List (Str × Str) :=
  walk.flatMap (fun e =>
    if hasSubstr (("photobook/").toList) (lowerStr e.1) then []
    else entry_pairs idx e.1 e.2)

/-- `find_originals` (lines 194-248) restricted to its pure content: build
the basename map from the thumb filenames and scan the walk. -/
def find_originals_pairs (walk : List (Str × List Str)) (filenames : List Str) : List (Str × Str) :=
  scan_pairs walk (build_basename_map filenames)

/-- Calendar date as parsed by `datetime.strptime(s, "%Y-%m-%d")`. -/
structure DateD where
  y : Nat
  m : Nat
  d : Nat
deriving DecidableEq, Repr

/-- `datetime` comparison restricted to dates: lexicographic on
(year, month, day). -/
def dateLt (a b : DateD) : Bool :=
  a.y < b.y || (a.y = b.y && (a.m < b.m || (a.m = b.m && a.d < b.d)))

/-- Python `str.split(sep)` for a one-character separator. -/
def splitOnChar (c : Char) : Str → List Str
  | [] => [[]]
  | x :: t =>
    match splitOnChar c t with
    | [] => [[]]
    | h :: r => if x = c then [] :: h :: r else (x :: h) :: r

def isDigitCh (c : Char) : Bool := '0' ≤ c && c ≤ '9'

def digitsVal (s : Str) : Nat := s.foldl (fun a c => a * 10 + (c.toNat - 48)) 0

def isLeap (y : Nat) : Bool := (y % 4 = 0 && ¬ y % 100 = 0) || y % 400 = 0

def daysInMonth (y m : Nat) : Nat :=
  if m = 2 then (if isLeap y then 29 else 28)
  else if m = 4 || m = 6 || m = 9 || m = 11 then 30
  else 31

/-- `parse_date` (lines 45-50): `datetime.strptime(s, "%Y-%m-%d")` succeeds
exactly on `YYYY-M-D` with a four-digit year, one- or two-digit month and
day, no surrounding junk, and a real calendar date with year at least 1. -/
def parse_date (s : Str) : Option DateD :=
  match splitOnChar '-' s with
  | [ys, ms, ds] =>
    if ys.length = 4 && ys.all isDigitCh
        && (ms.length = 1 || ms.length = 2) && ms.all isDigitCh
        && (ds.length = 1 || ds.length = 2) && ds.all isDigitCh then
      let y := digitsVal ys
      let m := digitsVal ms
      let d := digitsVal ds
      if 1 ≤ y && 1 ≤ m && m ≤ 12 && 1 ≤ d && d ≤ daysInMonth y m then
        some ⟨y, m, d⟩
      else none
    else none
  | _ => none

/-- Python `parts[0].rstrip(',-_')` applied to the text before the first
space: drop trailing commas, dashes and underscores. -/
def rstripPunct (s : Str) : Str :=
  (s.reverse.dropWhile (fun c => c = ',' || c = '-' || c = '_')).reverse

/-- `extract_date_from_dirname` (lines 53-68): try the leading 10
characters as `YYYY-MM-DD`; on failure (or a short name) fall back to the
text before the first space, stripped of trailing `,-_`. -/
def extract_date_from_dirname (dirname : Str) : Option DateD :=
  let fallback := parse_date (rstripPunct (dirname.takeWhile (fun c => c != ' ')))
  if 10 ≤ dirname.length then
    match parse_date (dirname.take 10) with
    | some d => some d
    | none => fallback
  else fallback

/-- Guard `date_start and dir_date < date_start` (line 78); a `datetime`
value is always truthy, so `None` is the only falsy case. -/
def beforeStart (dd : DateD) : Option DateD → Bool
  | some s => dateLt dd s
  | none => false

/-- Guard `date_end and dir_date > date_end` (line 80). -/
def afterEnd (dd : DateD) : Option DateD → Bool
  | some e => dateLt e dd
  | none => false

/-- Lines 78-83 of `is_dir_in_date_range`, once a date has been
extracted. -/
def in_range_check (dd : DateD) (ds de : Option DateD) : Bool :=
  if beforeStart dd ds then false
  else if afterEnd dd de then false
  else true

/-- `is_dir_in_date_range` (lines 71-83): exclude when no date is
extracted, or the date is before the given start, or after the given end;
include otherwise. -/
def is_dir_in_date_range (dirname : Str) (date_start date_end : Option DateD) : Bool :=
  match extract_date_from_dirname dirname with
  | none => false
  | some dd => in_range_check dd date_start date_end

/-- `os.path.basename`: text after the last `/`. -/
def basenameOf (p : Str) : Str := (p.reverse.takeWhile (fun c => c != '/')).reverse

def natStr (n : Nat) : Str := (Nat.repr n).toList

/-- Candidate name `f"{base}_{counter}{ext}"` (line 265). -/
def candName (base ext : Str) (c : Nat) : Str := base ++ '_' :: (natStr c ++ ext)

/-- The `while True` probe loop of `get_unique_dest_path` (lines 263-269),
run with fuel; `existing.length + 1` counters always suffice since the
candidate names for distinct counters are distinct. -/
def uniqueLoop (existing : List Str) (base ext : Str) : Nat → Nat → Str
  | 0, c => candName base ext c
  | fuel + 1, c =>
    if candName base ext c ∈ existing then uniqueLoop existing base ext fuel (c + 1)
    else candName base ext c

/-- `get_unique_dest_path` (lines 251-269) with `os.path.exists` probes
replaced by membership in the pre-run destination listing: every probe in
`main` runs before any copy task executes. -/
def get_unique_dest_path (existing : List Str) (filename : Str) : Str × Bool :=
  if filename ∈ existing then
    (uniqueLoop existing (splitext filename).1 (splitext filename).2
      (existing.length + 1) 1, true)
  else (filename, false)

/-- The task-assembly loop of `main` (lines 331-355): for each matched
reference and each of its original paths, resolve a destination name
against the pre-run destination listing, record a rename when the name
changed, enqueue the main copy task, and (when requested) enqueue a
sidecar task if `path + ".xmp"` exists on the source side.  Returns
`(copy_tasks, renamed_files)`. -/
def assemble_tasks (existing : List Str) (destDir : Str) (copyXmp : Bool)
    (xmpSources : List Str) (found : List (Str × List Str)) :
    List (Str × Str) × List (Str × Str) :=
  found.foldl (fun acc np =>
    np.2.foldl (fun acc p =>
      let actual := basenameOf p
      let dr := get_unique_dest_path existing actual
      let destPath := destDir ++ '/' :: dr.1
      let acc1 : List (Str × Str) × List (Str × Str) :=
        (acc.1 ++ [(p, destPath)],
         if dr.2 then acc.2 ++ [(actual, dr.1)] else acc.2)
      if copyXmp && (p ++ (".xmp").toList) ∈ xmpSources then
        (acc1.1 ++ [(p ++ (".xmp").toList, destDir ++ '/' :: (dr.1 ++ (".xmp").toList))],
         acc1.2)
      else acc1) acc) ([], [])

/-- Outcome of one copy task as the run reports it: the per-task
`"[DRY RUN] Would copy"` or `"Copied"` line plus the count increment. -/
inductive TaskOutcome where
  | wouldCopy
  | copied
deriving DecidableEq, Repr

/-- `copy_file` (lines 272-279) over a filesystem modelled as the list of
existing paths: a dry run only prints; a live run copies (`shutil.copy2`)
and raises when the source is missing. -/
def copy_file (fs : List Str) (src dest : Str) (dryRun : Bool) :
    List Str × Except String TaskOutcome :=
  if dryRun then (fs, .ok .wouldCopy)
  else if src ∈ fs then (dest :: fs, .ok .copied)
  else (fs, .error ("No such file or directory"))

/-- The copy phase of `main` (lines 357-368) in one completion order: each
`future.result()` either yields an outcome or re-raises the task's
exception, which propagates out of the `as_completed` loop.  The claimed
properties do not depend on which completion order is fixed. -/
def runScheduler (fs : List Str) :
    List (Str × Str) → Bool → List Str × Except String (List TaskOutcome)
  | [], _ => (fs, .ok [])
  | (s, d) :: t, dry =>
    match copy_file fs s d dry with
    | (fs', .error e) => (fs', .error e)
    | (fs', .ok o) =>
      match runScheduler fs' t dry with
      | (fs'', .ok os) => (fs'', .ok (o :: os))
      | (fs'', .error e) => (fs'', .error e)

/-- The missing-files report of `main` (lines 379-385):
`sorted(thumb_filenames - set(found_originals.keys()))`, the sort being
Python's lexicographic string order. -/
def missing_report (thumbs found_keys : List Str) : List Str :=
  List.insertionSort (fun a b : Str => a ≤ b)
    (thumbs.filter (fun t => decide (t ∉ found_keys)))

/-! ### Helper lemmas -/

theorem char_toNat_ofNat {n : Nat} (h : n < 55296) : (Char.ofNat n).toNat = n := by
  rw [Char.ofNat, dif_pos (Or.inl h)]
  rfl

theorem char_toNat_inj {a b : Char} (h : a.toNat = b.toNat) : a = b := by
  have h2 := congrArg Char.ofNat h
  simpa using h2

theorem toLower_toNat (c : Char) :
    (Char.toLower c).toNat =
      if c.toNat ≥ 65 ∧ c.toNat ≤ 90 then c.toNat + 32 else c.toNat := by
  simp only [Char.toLower]
  split
  · next h => exact char_toNat_ofNat (by omega)
  · rfl

theorem toLower_eq_dot {c : Char} (h : Char.toLower c = '.') : c = '.' := by
  have ht := congrArg Char.toNat h
  rw [toLower_toNat] at ht
  have hdot : ('.').toNat = 46 := rfl
  split at ht
  · next hc => omega
  · exact char_toNat_inj ht

theorem toLower_idem (c : Char) : Char.toLower (Char.toLower c) = Char.toLower c := by
  by_cases hc : c.toNat ≥ 65 ∧ c.toNat ≤ 90
  · have h1 : (Char.toLower c).toNat = c.toNat + 32 := by rw [toLower_toNat, if_pos hc]
    apply char_toNat_inj
    rw [toLower_toNat]
    simp only [h1]
    rw [if_neg (by omega)]
  · have h1 : (Char.toLower c).toNat = c.toNat := by rw [toLower_toNat, if_neg hc]
    apply char_toNat_inj
    rw [toLower_toNat]
    simp only [h1]
    rw [if_neg hc]

theorem lowerStr_append (a b : Str) : lowerStr (a ++ b) = lowerStr a ++ lowerStr b :=
  List.map_append _ a b

theorem lowerStr_cons (c : Char) (t : Str) :
    lowerStr (c :: t) = Char.toLower c :: lowerStr t := rfl

theorem lowerStr_length (s : Str) : (lowerStr s).length = s.length :=
  List.length_map s _

theorem lowerStr_idem (s : Str) : lowerStr (lowerStr s) = lowerStr s := by
  simp [lowerStr, Function.comp, toLower_idem]

theorem dot_not_mem_lowerStr {s : Str} (h : '.' ∉ s) : '.' ∉ lowerStr s := by
  intro hm
  rcases List.mem_map.mp hm with ⟨c, hc, he⟩
  exact h (toLower_eq_dot he ▸ hc)

theorem isPre_app (a b : Str) : a.isPrefixOf (a ++ b) = true := by
  induction a with
  | nil => simp
  | cons x t ih => simp [List.isPrefixOf, ih]

theorem takeWhile_app_dot (a b : Str) (ha : '.' ∉ a) :
    (a ++ '.' :: b).takeWhile (fun c => c != '.') = a := by
  induction a with
  | nil => simp
  | cons x t ih =>
    have hx : (x != '.') = true := by
      simp only [bne_iff_ne, ne_eq]
      intro hx
      exact ha (hx ▸ List.mem_cons_self x t)
    have ht : '.' ∉ t := fun hm => ha (List.mem_cons_of_mem x hm)
    simp [List.takeWhile_cons, hx, ih ht]

theorem contains_false_of_not_mem {α} [BEq α] [LawfulBEq α] {a : α} {l : List α}
    (h : a ∉ l) : l.contains a = false := by
  rw [Bool.eq_false_iff]
  intro hc
  exact h (List.elem_iff.mp hc)

theorem ne_of_len_lt {a b : Str} (h : a.length < b.length) : b ≠ a := by
  intro he
  rw [he] at h
  omega

theorem matches_single (stem key name : Str) :
    matches_basename stem [(key, name)] =
      if qualifies (lowerStr stem) key = true ∧ 0 < key.length then some name else none := by
  by_cases h : qualifies (lowerStr stem) key = true ∧ 0 < key.length
  · rw [if_pos h]
    unfold matches_basename
    simp only [List.foldl, matchStep]
    rw [if_pos (show qualifies (lowerStr stem) key = true ∧ 0 < key.length from h)]
  · rw [if_neg h]
    unfold matches_basename
    simp only [List.foldl, matchStep]
    rw [if_neg (show ¬ (qualifies (lowerStr stem) key = true ∧ 0 < key.length) from h)]

theorem qualifies_dot_suffix (key rest : Str) (hkey : lowerStr key = key) :
    qualifies (lowerStr (key ++ '.' :: rest)) key
      = rawRemainderOk (lowerStr rest) := by
  have hst : lowerStr (key ++ '.' :: rest) = key ++ '.' :: lowerStr rest := by
    rw [lowerStr_append, hkey, lowerStr_cons]
    rfl
  have hne : ¬ (key ++ '.' :: lowerStr rest = key) := by
    intro he
    have hl := congrArg List.length he
    simp at hl
  rw [hst]
  unfold qualifies
  rw [if_neg hne, isPre_app, if_pos rfl, List.drop_left]
  show (if sepOk '.' = true then true
    else if '.' = '.' then rawRemainderOk (lowerStr rest) else false)
      = rawRemainderOk (lowerStr rest)
  rw [if_neg (by decide), if_pos rfl]

theorem contains_true_of_mem {α} [BEq α] [LawfulBEq α] {a : α} {l : List α}
    (h : a ∈ l) : l.contains a = true :=
  List.elem_iff.mpr h

theorem not_mem_of_contains_false {α} [BEq α] [LawfulBEq α] {a : α} {l : List α}
    (h : l.contains a = false) : a ∉ l := by
  intro hm
  rw [contains_true_of_mem hm] at h
  cases h

theorem rawRemainderOk_plain (tok : Str) (hdot : '.' ∉ tok) :
    rawRemainderOk (lowerStr tok) = RAW_EXTENSIONS.contains ('.' :: lowerStr tok) := by
  unfold rawRemainderOk
  have hnd : '.' ∉ lowerStr tok := dot_not_mem_lowerStr hdot
  rw [contains_false_of_not_mem hnd]
  simp only [Bool.false_eq_true, if_false, lowerStr_idem, Bool.or_self]

theorem raw_tails_dot_free : ∀ x ∈ RAW_EXTENSIONS, (x.drop 1).contains '.' = false := by
  decide

theorem rawRemainderOk_chain (r rest : Str)
    (hr : ('.' :: lowerStr r) ∈ RAW_EXTENSIONS) :
    rawRemainderOk (lowerStr (r ++ '.' :: rest)) = true := by
  have hrl : lowerStr (r ++ '.' :: rest) = lowerStr r ++ '.' :: lowerStr rest := by
    rw [lowerStr_append, lowerStr_cons]
    rfl
  have hnd : '.' ∉ lowerStr r :=
    not_mem_of_contains_false (raw_tails_dot_free _ hr)
  have hcont : (lowerStr r ++ '.' :: lowerStr rest).contains '.' = true :=
    contains_true_of_mem (List.mem_append_right _ (List.mem_cons_self _ _))
  rw [hrl]
  unfold rawRemainderOk
  rw [hcont]
  simp only [if_true]
  rw [takeWhile_app_dot _ _ hnd, lowerStr_idem]
  rw [contains_true_of_mem hr]
  rfl

/-- C6: for a (lowercase, nonempty) index key `k`, a candidate stem of the
form `k ++ "." ++ tok` with `tok` a dot-free token matches `k` exactly
when `"." ++ tok.lower()` is one of the recognized raw extensions; an
unrecognized token after the dot never matches (so `img_0002.xyz` does not
match key `img_0002`, while `img_0002.CR3` does). -/
theorem c6_dot_boundary (k name tok : Str) (hk : 0 < k.length)
    (hlow : lowerStr k = k) (hdot : '.' ∉ tok) :
    (('.' :: lowerStr tok) ∉ RAW_EXTENSIONS →
      matches_basename (k ++ '.' :: tok) [(k, name)] = none)
    ∧ (('.' :: lowerStr tok) ∈ RAW_EXTENSIONS →
      matches_basename (k ++ '.' :: tok) [(k, name)] = some name) := by
  have hq : qualifies (lowerStr (k ++ '.' :: tok)) k = rawRemainderOk (lowerStr tok) :=
    qualifies_dot_suffix k tok hlow
  rw [rawRemainderOk_plain tok hdot] at hq
  constructor
  · intro hnot
    rw [matches_single]
    rw [if_neg]
    intro hcond
    rw [hq, contains_false_of_not_mem hnot] at hcond
    cases hcond.1
  · intro hyes
    rw [matches_single]
    rw [if_pos ⟨by rw [hq, contains_true_of_mem hyes], hk⟩]

/-- C6 witness: `img_0002.xyz` does not match index key `img_0002`;
`img_0002.CR3` does. -/
theorem c6_dot_boundary_witness :
    matches_basename ((("img_0002").toList) ++ '.' :: (("xyz").toList))
      [((("img_0002").toList), (("IMG_0002.jpg").toList))] = none
    ∧ matches_basename ((("img_0002").toList) ++ '.' :: (("CR3").toList))
      [((("img_0002").toList), (("IMG_0002.jpg").toList))]
        = some (("IMG_0002.jpg").toList) :=
  ⟨(c6_dot_boundary (("img_0002").toList) (("IMG_0002.jpg").toList) (("xyz").toList)
      (by decide) (by decide) (by decide)).1 (by decide),
   (c6_dot_boundary (("img_0002").toList) (("IMG_0002.jpg").toList) (("CR3").toList)
      (by decide) (by decide) (by decide)).2 (by decide)⟩

/-- C10: a stem of the form `k ++ "." ++ r ++ "." ++ anything`, with `r` a
recognized raw extension token, still matches the (lowercase, nonempty)
index key `k`: the secondary-extension check reads the token between the
first two dots of the remainder. -/
theorem c10_secondary_ext_chain (k name r rest : Str) (hk : 0 < k.length)
    (hlow : lowerStr k = k) (hr : ('.' :: lowerStr r) ∈ RAW_EXTENSIONS) :
    matches_basename (k ++ '.' :: (r ++ '.' :: rest)) [(k, name)] = some name := by
  have hq : qualifies (lowerStr (k ++ '.' :: (r ++ '.' :: rest))) k
      = rawRemainderOk (lowerStr (r ++ '.' :: rest)) :=
    qualifies_dot_suffix k (r ++ '.' :: rest) hlow
  rw [rawRemainderOk_chain r rest hr] at hq
  rw [matches_single, if_pos ⟨hq, hk⟩]

/-- C10 witness: `img_0002.cr3.extra` matches index key `img_0002`. -/
theorem c10_secondary_ext_chain_witness :
    matches_basename ((("img_0002").toList) ++ '.' :: ((("cr3").toList) ++ '.' :: (("extra").toList)))
      [((("img_0002").toList), (("IMG_0002.jpg").toList))]
      = some (("IMG_0002.jpg").toList) :=
  c10_secondary_ext_chain (("img_0002").toList) (("IMG_0002.jpg").toList)
    (("cr3").toList) (("extra").toList) (by decide) (by decide) (by decide)

theorem matchFold_max (stemL key name : Str) (hq : qualifies stemL key = true) :
    ∀ (l : List (Str × Str)),
      (∀ kv ∈ l, qualifies stemL kv.1 = true → kv.1.length ≤ key.length) →
      (∀ kv ∈ l, qualifies stemL kv.1 = true → kv.1.length = key.length → kv = (key, name)) →
      ∀ acc : Option Str × Nat,
        (((key, name) ∈ l ∧ acc.2 < key.length) ∨ acc = (some name, key.length)) →
        l.foldl (matchStep stemL) acc = (some name, key.length) := by
  intro l
  induction l with
  | nil =>
    intro _ _ acc hstart
    rcases hstart with ⟨hmem, _⟩ | hacc
    · exact absurd hmem (List.not_mem_nil _)
    · simpa using congrArg id hacc
  | cons kv t ih =>
    intro hmax hdup acc hstart
    have hmax' : ∀ kv ∈ t, qualifies stemL kv.1 = true → kv.1.length ≤ key.length :=
      fun x hx => hmax x (List.mem_cons_of_mem kv hx)
    have hdup' : ∀ kv ∈ t, qualifies stemL kv.1 = true → kv.1.length = key.length →
        kv = (key, name) :=
      fun x hx => hdup x (List.mem_cons_of_mem kv hx)
    rw [List.foldl_cons]
    rcases hstart with ⟨hmem, hlt⟩ | hacc
    · by_cases hkv : kv = (key, name)
      · subst hkv
        have hstep : matchStep stemL acc (key, name) = (some name, key.length) := by
          unfold matchStep
          rw [if_pos ⟨hq, hlt⟩]
        rw [hstep]
        exact ih hmax' hdup' _ (Or.inr rfl)
      · have hmem' : (key, name) ∈ t := by
          rcases List.mem_cons.mp hmem with he | ht
          · exact absurd he.symm hkv
          · exact ht
        by_cases hcond : qualifies stemL kv.1 = true ∧ acc.2 < kv.1.length
        · have hlen : kv.1.length < key.length :=
            Nat.lt_of_le_of_ne (hmax kv (List.mem_cons_self kv t) hcond.1)
              (fun he => hkv (hdup kv (List.mem_cons_self kv t) hcond.1 he))
          have hstep : matchStep stemL acc kv = (some kv.2, kv.1.length) := by
            unfold matchStep
            rw [if_pos hcond]
          rw [hstep]
          exact ih hmax' hdup' _ (Or.inl ⟨hmem', hlen⟩)
        · have hstep : matchStep stemL acc kv = acc := by
            unfold matchStep
            rw [if_neg hcond]
          rw [hstep]
          exact ih hmax' hdup' _ (Or.inl ⟨hmem', hlt⟩)
    · subst hacc
      have hstep : matchStep stemL (some name, key.length) kv = (some name, key.length) := by
        unfold matchStep
        rw [if_neg]
        intro hcond
        have hle := hmax kv (List.mem_cons_self kv t) hcond.1
        have hgt := hcond.2
        simp only at hgt
        omega
      rw [hstep]
      exact ih hmax' hdup' _ (Or.inr rfl)

/-- C5: when several index keys qualify for a candidate stem under the
three matching rules, `matches_basename` returns the reference name stored
under the key of greatest character length (every qualifying key is a
prefix of the lowercased stem, so the longest qualifying key is unique in
a duplicate-free index; `hdup` states that uniqueness). -/
theorem c5_longest_match (bases : List (Str × Str)) (stem key name : Str)
    (hmem : (key, name) ∈ bases)
    (hq : qualifies (lowerStr stem) key = true)
    (hpos : 0 < key.length)
    (hmax : ∀ kv ∈ bases, qualifies (lowerStr stem) kv.1 = true → kv.1.length ≤ key.length)
    (hdup : ∀ kv ∈ bases, qualifies (lowerStr stem) kv.1 = true → kv.1.length = key.length →
      kv = (key, name)) :
    matches_basename stem bases = some name := by
  unfold matches_basename
  rw [matchFold_max (lowerStr stem) key name hq bases hmax hdup (none, 0)
    (Or.inl ⟨hmem, hpos⟩)]

/-- C5 witness: with index keys `img` and `img_0002`, candidate stem
`img_0002 1` matches `img_0002` and never `img`. -/
theorem c5_longest_match_witness :
    matches_basename (("img_0002 1").toList)
      [((("img").toList), (("IMG.jpg").toList)),
       ((("img_0002").toList), (("IMG_0002.jpg").toList))]
      = some (("IMG_0002.jpg").toList)
    ∧ matches_basename (("img_0002 1").toList)
      [((("img").toList), (("IMG.jpg").toList)),
       ((("img_0002").toList), (("IMG_0002.jpg").toList))]
      ≠ some (("IMG.jpg").toList) := by
  have h := c5_longest_match
    [((("img").toList), (("IMG.jpg").toList)),
     ((("img_0002").toList), (("IMG_0002.jpg").toList))]
    (("img_0002 1").toList) (("img_0002").toList) (("IMG_0002.jpg").toList)
    (by decide) (by decide) (by decide) (by decide) (by decide)
  exact ⟨h, by rw [h]; decide⟩

theorem copy_file_dry (fs : List Str) (s d : Str) :
    copy_file fs s d true = (fs, .ok .wouldCopy) := rfl

theorem copy_file_hit (fs : List Str) (s d : Str) (h : s ∈ fs) :
    copy_file fs s d false = (d :: fs, .ok .copied) := by
  unfold copy_file
  rw [if_neg (by simp), if_pos h]

theorem copy_file_miss (fs : List Str) (s d : Str) (h : s ∉ fs) :
    copy_file fs s d false = (fs, .error ("No such file or directory")) := by
  unfold copy_file
  rw [if_neg (by simp), if_neg h]

theorem runScheduler_cons (fs : List Str) (s d : Str) (t : List (Str × Str)) (dry : Bool) :
    runScheduler fs ((s, d) :: t) dry =
      match copy_file fs s d dry with
      | (fs', .error e) => (fs', .error e)
      | (fs', .ok o) =>
        match runScheduler fs' t dry with
        | (fs'', .ok os) => (fs'', .ok (o :: os))
        | (fs'', .error e) => (fs'', .error e) := rfl

/-- C7: the date-range filter excludes a directory when no date can be
extracted from its name, excludes it when the extracted date is strictly
before the given start or strictly after the given end, and includes it
otherwise (the bounds are inclusive). -/
theorem c7_date_filter (dirname : Str) (ds de : Option DateD) :
    (extract_date_from_dirname dirname = none →
      is_dir_in_date_range dirname ds de = false)
    ∧ (∀ dd s, extract_date_from_dirname dirname = some dd → ds = some s →
      dateLt dd s = true → is_dir_in_date_range dirname ds de = false)
    ∧ (∀ dd e, extract_date_from_dirname dirname = some dd → de = some e →
      dateLt e dd = true → is_dir_in_date_range dirname ds de = false)
    ∧ (∀ dd, extract_date_from_dirname dirname = some dd →
      (∀ s, ds = some s → dateLt dd s = false) →
      (∀ e, de = some e → dateLt e dd = false) →
      is_dir_in_date_range dirname ds de = true) := by
  refine ⟨fun hn => ?_, fun dd s hd hs hlt => ?_, fun dd e hd he hlt => ?_,
    fun dd hd hs he => ?_⟩
  · unfold is_dir_in_date_range
    rw [hn]
  · unfold is_dir_in_date_range
    rw [hd]
    show in_range_check dd ds de = false
    unfold in_range_check
    rw [hs]
    rw [if_pos]
    show beforeStart dd (some s) = true
    exact hlt
  · unfold is_dir_in_date_range
    rw [hd]
    show in_range_check dd ds de = false
    unfold in_range_check
    rw [he]
    by_cases hbs : beforeStart dd ds = true
    · rw [if_pos hbs]
    · rw [if_neg hbs, if_pos]
      show afterEnd dd (some e) = true
      exact hlt
  · have hA : beforeStart dd ds = false := by
      cases ds with
      | none => rfl
      | some s2 => exact hs s2 rfl
    have hB : afterEnd dd de = false := by
      cases de with
      | none => rfl
      | some e2 => exact he e2 rfl
    unfold is_dir_in_date_range
    rw [hd]
    show in_range_check dd ds de = true
    unfold in_range_check
    rw [hA, hB]
    rfl

/-- C7 witness: with the window 2024-06-01 to 2024-06-30, directory
`2024-06-15 Paris` is included, `2024-07-01 Tokyo` is excluded, and
`misc` (no extractable date) is excluded. -/
theorem c7_date_filter_witness :
    is_dir_in_date_range (("2024-06-15 Paris").toList)
      (some ⟨2024, 6, 1⟩) (some ⟨2024, 6, 30⟩) = true
    ∧ is_dir_in_date_range (("2024-07-01 Tokyo").toList)
      (some ⟨2024, 6, 1⟩) (some ⟨2024, 6, 30⟩) = false
    ∧ is_dir_in_date_range (("misc").toList)
      (some ⟨2024, 6, 1⟩) (some ⟨2024, 6, 30⟩) = false := by
  refine ⟨?_, ?_, ?_⟩
  · exact (c7_date_filter (("2024-06-15 Paris").toList)
      (some ⟨2024, 6, 1⟩) (some ⟨2024, 6, 30⟩)).2.2.2 ⟨2024, 6, 15⟩ (by decide)
      (fun s hs => by cases hs; decide) (fun e he => by cases he; decide)
  · exact (c7_date_filter (("2024-07-01 Tokyo").toList)
      (some ⟨2024, 6, 1⟩) (some ⟨2024, 6, 30⟩)).2.2.1 ⟨2024, 7, 1⟩ ⟨2024, 6, 30⟩
      (by decide) rfl (by decide)
  · exact (c7_date_filter (("misc").toList)
      (some ⟨2024, 6, 1⟩) (some ⟨2024, 6, 30⟩)).1 (by decide)

/-- C8: in dry-run mode the scheduler leaves the filesystem untouched and
reports a "would copy" outcome for every task in the list. -/
theorem c8_dry_run (fs : List Str) (tasks : List (Str × Str)) :
    runScheduler fs tasks true
      = (fs, Except.ok (tasks.map (fun _ => TaskOutcome.wouldCopy))) := by
  induction tasks with
  | nil => rfl
  | cons td t ih =>
    obtain ⟨s, d⟩ := td
    rw [runScheduler_cons, copy_file_dry]
    show (match runScheduler fs t true with
      | (fs2, Except.ok os) => (fs2, Except.ok (TaskOutcome.wouldCopy :: os))
      | (fs2, Except.error e) => (fs2, Except.error e))
      = (fs, Except.ok (((s, d) :: t).map (fun _ => TaskOutcome.wouldCopy)))
    rw [ih]
    rfl

/-- C3 (amended): in live mode, a task whose source is absent (and is not
created as the destination of an earlier task in the list) makes the
scheduler return the propagated exception: the run ends in a process-level
fault instead of a complete per-task outcome set. -/
theorem c3_error_propagates (ts : List (Str × Str)) (fs : List Str) (s d : Str)
    (h1 : s ∉ fs) (h2 : s ∉ ts.map Prod.snd) :
    ∃ e, (runScheduler fs (ts ++ [(s, d)]) false).2 = Except.error e := by
  induction ts generalizing fs with
  | nil =>
    refine ⟨("No such file or directory"), ?_⟩
    rw [List.nil_append, runScheduler_cons, copy_file_miss fs s d h1]
  | cons td t ih =>
    obtain ⟨a, b⟩ := td
    have hsb : s ≠ b := by
      intro he
      exact h2 (by simp [he])
    have h2' : s ∉ t.map Prod.snd := fun hm => h2 (by simp [hm])
    rw [List.cons_append, runScheduler_cons]
    by_cases ha : a ∈ fs
    · rw [copy_file_hit fs a b ha]
      have hs' : s ∉ b :: fs := by
        intro hm
        rcases List.mem_cons.mp hm with he | hm2
        · exact hsb he
        · exact h1 hm2
      obtain ⟨e, he⟩ := ih (b :: fs) hs' h2'
      refine ⟨e, ?_⟩
      show (match runScheduler (b :: fs) (t ++ [(s, d)]) false with
        | (fs2, Except.ok os) => (fs2, Except.ok (TaskOutcome.copied :: os))
        | (fs2, Except.error e2) => (fs2, Except.error e2)).2 = Except.error e
      rcases hr : runScheduler (b :: fs) (t ++ [(s, d)]) false with ⟨fs2, r2⟩
      rw [hr] at he
      replace he : r2 = Except.error e := he
      subst he
      rfl
    · rw [copy_file_miss fs a b ha]
      exact ⟨("No such file or directory"), rfl⟩

/-- C3 witness: a run with one good task followed by one whose source is
missing ends in a propagated exception. -/
theorem c3_error_propagates_witness :
    ∃ e, (runScheduler [(("src1").toList)]
      [((("src1").toList), (("d1").toList)), ((("gone").toList), (("d2").toList))]
      false).2 = Except.error e :=
  c3_error_propagates [((("src1").toList), (("d1").toList))] [(("src1").toList)]
    (("gone").toList) (("d2").toList) (by decide) (by decide)

/-- C3 counterexample to the claim as stated: with the first task's copy
succeeding and the second raising, the scheduler does not return an
outcome set covering every task — the error surfaces as a process-level
fault instead of a per-task failure outcome. -/
theorem c3_counterexample :
    (runScheduler [(("src1").toList)]
      [((("src1").toList), (("d1").toList)), ((("gone").toList), (("d2").toList))]
      false).2 = Except.error ("No such file or directory") := rfl

/-- C9: the reported missing set is exactly the set difference between the
thumb filenames and the keys of the match result, emitted in sorted
(lexicographic) order. -/
theorem c9_missing_report (thumbs keys : List Str) :
    (∀ x, x ∈ missing_report thumbs keys ↔ x ∈ thumbs ∧ x ∉ keys)
    ∧ (missing_report thumbs keys).Sorted (fun a b : Str => a ≤ b) := by
  constructor
  · intro x
    unfold missing_report
    rw [List.mem_insertionSort, List.mem_filter]
    simp
  · exact List.sorted_insertionSort _ _

/-- C2 (amended): a file yielded by a walk entry is considered (appears as
a pair for its path) iff its `splitext` extension is literally one of
`.jpg`, `.jpeg`, `.JPG`, `.JPEG` and its stem matches an index key; the
extension comparison is exact, not case-insensitive. -/
theorem c2_extension_filter (idx : List (Str × Str)) (root f : Str) (files : List Str)
    (hf : f ∈ files) :
    (∃ name, (name, root ++ '/' :: f) ∈ entry_pairs idx root files) ↔
      ((splitext f).2 ∈ VALID_EXTENSIONS
        ∧ ∃ name, matches_basename (splitext f).1 idx = some name) := by
  constructor
  · rintro ⟨name, hm⟩
    unfold entry_pairs at hm
    rw [List.mem_flatMap] at hm
    obtain ⟨f2, hf2, hp⟩ := hm
    unfold file_pair at hp
    by_cases hext : (splitext f2).2 ∈ VALID_EXTENSIONS
    · rw [if_pos hext] at hp
      rcases hmb : matches_basename (splitext f2).1 idx with _ | nm
      · rw [hmb] at hp
        cases hp
      · rw [hmb] at hp
        have hpe := List.mem_singleton.mp hp
        have hpath : root ++ '/' :: f = root ++ '/' :: f2 := congrArg Prod.snd hpe
        have hff : f = f2 := by
          have hc := List.append_cancel_left hpath
          injection hc
        subst hff
        exact ⟨hext, nm, hmb⟩
    · rw [if_neg hext] at hp
      cases hp
  · rintro ⟨hext, name, hmb⟩
    refine ⟨name, ?_⟩
    unfold entry_pairs
    rw [List.mem_flatMap]
    refine ⟨f, hf, ?_⟩
    unfold file_pair
    rw [if_pos hext, hmb]
    exact List.mem_singleton.mpr rfl

/-- C2 witness: `img_0002.jpg` (exact lowercase extension) in a walk entry
is matched and appears for its path. -/
theorem c2_extension_filter_witness :
    ∃ name, (name, (("a").toList) ++ '/' :: (("img_0002.jpg").toList)) ∈
      entry_pairs (build_basename_map [(("IMG_0002.jpg").toList)])
        (("a").toList) [(("img_0002.jpg").toList)] :=
  (c2_extension_filter (build_basename_map [(("IMG_0002.jpg").toList)])
    (("a").toList) (("img_0002.jpg").toList) [(("img_0002.jpg").toList)]
    (by decide)).mpr ⟨by decide, (("IMG_0002.jpg").toList), by decide⟩

/-- C2 counterexample to the claim as stated: `img_0002.Jpg` has an
extension that is case-insensitively `.jpg` and a stem that matches the
index, yet the scan ignores it entirely, while the same file spelled
`img_0002.jpg` is accepted — acceptance does depend on the case mix. -/
theorem c2_counterexample :
    find_originals_pairs [((("a").toList), [(("img_0002.Jpg").toList)])]
      [(("IMG_0002.jpg").toList)] = []
    ∧ lowerStr ((splitext (("img_0002.Jpg").toList)).2) = ((".jpg").toList)
    ∧ find_originals_pairs [((("a").toList), [(("img_0002.jpg").toList)])]
      [(("IMG_0002.jpg").toList)]
      = [((("IMG_0002.jpg").toList), (("a/img_0002.jpg").toList))] :=
  ⟨by decide, by decide, by decide⟩

/-- C4: evaluation at the failing input. The walk visits the directory
`archive/Photobook` itself (its root string has no trailing slash, so the
`'photobook/' in root.lower()` test fails) and its file is matched into
the result, while the subdirectory `archive/Photobook/sub` is skipped;
the root's lowercased path does contain the excluded segment
`photobook`. -/
theorem c4_photobook_eval :
    find_originals_pairs
      [((("archive/Photobook").toList), [(("img_0002.jpg").toList)]),
       ((("archive/Photobook/sub").toList), [(("img_0002 1.jpg").toList)])]
      [(("IMG_0002.jpg").toList)]
      = [((("IMG_0002.jpg").toList), (("archive/Photobook/img_0002.jpg").toList))]
    ∧ hasSubstr (("photobook").toList) (lowerStr (("archive/Photobook").toList)) = true :=
  ⟨by decide, by decide⟩

/-- C1: evaluation at the failing input. Two distinct matched source paths
with the same basename, assembled against an empty destination directory,
both receive the destination `dest/IMG_0001.jpg`: the assembled task list
contains two tasks with the same destination path before any copy
executes. -/
theorem c1_duplicate_dest_eval :
    (assemble_tasks [] (("dest").toList) false []
      [((("IMG_0001.jpg").toList),
        [(("a/IMG_0001.jpg").toList), (("b/IMG_0001.jpg").toList)])]).1
      = [((("a/IMG_0001.jpg").toList), (("dest/IMG_0001.jpg").toList)),
         ((("b/IMG_0001.jpg").toList), (("dest/IMG_0001.jpg").toList))]
    ∧ ((assemble_tasks [] (("dest").toList) false []
      [((("IMG_0001.jpg").toList),
        [(("a/IMG_0001.jpg").toList), (("b/IMG_0001.jpg").toList)])]).1.map
          Prod.fst).Nodup
    ∧ ¬ ((assemble_tasks [] (("dest").toList) false []
      [((("IMG_0001.jpg").toList),
        [(("a/IMG_0001.jpg").toList), (("b/IMG_0001.jpg").toList)])]).1.map
          Prod.snd).Nodup :=
  ⟨by decide, by decide, by decide⟩
